import Mathlib

/-!
Shallow embedding of the cardinality-estimation program in `src/main.cc`.

The program consists of the bit-rank utilities in namespace `PCSA`
(`p` = `__builtin_popcount` on a `uint32_t`, `R x` = `~x & (x+1)`,
`r x` = `p (R x - 1)`), and four sketch estimators:

* `PCSACardinalityEstimator`: a single `uint32_t` bitmap `sketch_`;
  `item` ORs `R(hash(s))` into it, `count` returns `R(sketch_) / kPhi`.
* `StochasticAveragingCardinalityEstimator<M>`: `uint32_t sketch_[M]`;
  `item` ORs `R(hash(s))` into bucket `murmurhash3_32(s) % M`;
  `count` averages `r(sketch_[k])` (accumulated in a `uint32_t`) and
  returns `M * 2^mean / kPhi`.
* `LogLogCardinalityEstimator<M>`: max-rank registers; `item` stores
  `max(sketch_[k], r(hash(s)))`; `count` averages `R(sketch_[k])`
  (accumulated in a `uint32_t`) and returns `M * 2^(mean+1) * kPhi`.
* `HyperLogLogCardinalityEstimator<M>`: same update as LogLog; `count`
  returns `M * M * kPhi / sum` with `sum = Σ_k 2^(-1 - sketch_[k])`.

Machine `uint32_t` values are embedded as `Nat` with explicit `% 2^32`
where C++ conversion or wraparound occurs.  The `double` arithmetic of the
`count` methods is idealised as real arithmetic (`pow(2, e)` becomes the
real power `(2:ℝ) ^ e`); each C++ `count` finally converts this `double`
to `size_t`, which truncates, so the embedded `count` is the real value
the method computes just before that conversion.  The two hash functions
(`std::hash<string>` and `murmurhash3_32`) are external collaborators and
are taken as parameters; `R` and `bucketIdx` reduce their results
`% 2^32`, modelling the conversion of the hash value to `uint32_t`.
-/

namespace PCSA

/-- Bias-correction constant `kPhi = .77351` from `src/main.cc`. -/
noncomputable def kPhi : ℝ := 0.77351

/-- Number of ones in the binary representation of x
(`__builtin_popcount` applied to a `uint32_t`, so only bits 0..31 count). -/
def p (x : Nat) : Nat := (List.range 32).countP (fun i => (x % 2^32).testBit i)

/-- Value `2^(r x)`: computed as `~x & (x+1)` in `uint32_t` arithmetic
(complement is XOR with the 32-bit mask; `x+1` wraps modulo `2^32`). -/
def R (x : Nat) : Nat := ((2^32 - 1) ^^^ (x % 2^32)) &&& ((x % 2^32 + 1) % 2^32)

/-- Number of trailing ones in the binary representation of x:
`p (R x - 1)`, where the `uint32_t` subtraction wraps modulo `2^32`. -/
def r (x : Nat) : Nat := p ((R x + (2^32 - 1)) % 2^32)

end PCSA

/-- Mathematical count of trailing one-bits of a natural number. -/
def trailOnes (x : Nat) : Nat :=
  if h : x % 2 = 1 then trailOnes (x / 2) + 1 else 0
termination_by x
decreasing_by exact Nat.div_lt_self (by omega) (by omega)

/-- Write value v into register k, leaving all other registers unchanged
(models the single array store `sketch_[k] = v`). -/
def updAt (regs : Nat → Nat) (k v : Nat) : Nat → Nat :=
  fun j => if j = k then v else regs j

/-- Bucket index `murmurhash3_32(...) % M`: the hash value is a `uint32_t`
(hence the `% 2^32`), reduced modulo the bucket count M. -/
def bucketIdx (bh : String → Nat) (M : Nat) (s : String) : Nat :=
  bh s % 2^32 % M

/-- Register contents produced by the constructors: every register is
zeroed.  The parameter mirrors the compile-time bucket count `M`; no
validation of `M` is performed anywhere in the source. -/
def initRegs (M : Nat) : Nat → Nat := fun _ => 0

/-- Feed a list of items to an estimator, one `item` call per element. -/
def ingestAll {σ : Type} (f : String → σ → σ) (l : List String) (st : σ) : σ :=
  l.foldl (fun st s => f s st) st

namespace PCSACardinalityEstimator

/-- Method `item`: `sketch_ |= PCSA::R(hash_(s))`. -/
def item (rh : String → Nat) (s : String) (sketch : Nat) : Nat :=
  sketch ||| PCSA.R (rh s)

/-- Method `count`: `PCSA::R(sketch_) / PCSA::kPhi` (idealised `double`). -/
noncomputable def count (sketch : Nat) : ℝ :=
  (PCSA.R sketch : ℝ) / PCSA.kPhi

end PCSACardinalityEstimator

namespace StochasticAveragingCardinalityEstimator

/-- Method `item`: `sketch_[k] |= PCSA::R(hash_(s))` with
`k = murmurhash3_32(s) % M`. -/
def item (bh rh : String → Nat) (M : Nat) (s : String) (regs : Nat → Nat) :
    Nat → Nat :=
  updAt regs (bucketIdx bh M s) (regs (bucketIdx bh M s) ||| PCSA.R (rh s))

/-- Method `count`: sum `PCSA::r(sketch_[k])` over the buckets in a
`uint32_t` accumulator (wrapping modulo `2^32`), divide by M to get the
mean, return `M * pow(2, mean) / kPhi`. -/
noncomputable def count (M : Nat) (regs : Nat → Nat) : ℝ :=
  let sum : Nat := (List.range M).foldl (fun acc k => (acc + PCSA.r (regs k)) % 2^32) 0
  let mean : ℝ := (sum : ℝ) / (M : ℝ)
  (M : ℝ) * (2 : ℝ) ^ mean / PCSA.kPhi

end StochasticAveragingCardinalityEstimator

namespace LogLogCardinalityEstimator

/-- Method `item`: `k = murmurhash3_32(s) % M`; `r = PCSA::r(hash_(s))`;
`if (sketch_[k] < r) sketch_[k] = r`. -/
def item (bh rh : String → Nat) (M : Nat) (s : String) (regs : Nat → Nat) :
    Nat → Nat :=
  let k := bucketIdx bh M s
  let rv := PCSA.r (rh s)
  if regs k < rv then updAt regs k rv else regs

/-- Method `count`: sum `PCSA::R(sketch_[k])` over the buckets in a
`uint32_t` accumulator (wrapping modulo `2^32`), divide by M to get the
mean, return `M * pow(2, mean + 1.0) * kPhi`. -/
noncomputable def count (M : Nat) (regs : Nat → Nat) : ℝ :=
  let sum : Nat := (List.range M).foldl (fun acc k => (acc + PCSA.R (regs k)) % 2^32) 0
  let mean : ℝ := (sum : ℝ) / (M : ℝ)
  (M : ℝ) * (2 : ℝ) ^ (mean + 1) * PCSA.kPhi

end LogLogCardinalityEstimator

namespace HyperLogLogCardinalityEstimator

/-- Method `item`: identical update rule to the LogLog estimator. -/
def item (bh rh : String → Nat) (M : Nat) (s : String) (regs : Nat → Nat) :
    Nat → Nat :=
  let k := bucketIdx bh M s
  let rv := PCSA.r (rh s)
  if regs k < rv then updAt regs k rv else regs

/-- Method `count`: `sum += pow(2, -1.0 - sketch_[k])` over the buckets
(`double` accumulator), return `M * M * kPhi / sum`. -/
noncomputable def count (M : Nat) (regs : Nat → Nat) : ℝ :=
  let sum : ℝ := (List.range M).foldl (fun acc k => acc + (2 : ℝ) ^ (-1 - (regs k : ℝ))) 0
  (M : ℝ) * (M : ℝ) * PCSA.kPhi / sum

end HyperLogLogCardinalityEstimator

/-- Modelled from the words of claim C2 (spec 4.5), for comparison with
the code: `estimate()` as `M * 2^(mean + 1) * PHI` where mean is the
arithmetic mean over the M buckets of `2^(registers[k])`. -/
noncomputable def llClaimedCount (M : Nat) (regs : Nat → Nat) : ℝ :=
  (M : ℝ) * (2 : ℝ) ^ ((((Finset.range M).sum fun k => (2:ℝ) ^ (regs k)) / (M : ℝ)) + 1) * PCSA.kPhi

/-- Modelled from the words of claim C4 (spec 4.4), for comparison with
the code: `estimate()` as `M * 2^mean / PHI` where mean is the arithmetic
mean over the M buckets of `rank(registers[k])`. -/
noncomputable def saClaimedCount (M : Nat) (regs : Nat → Nat) : ℝ :=
  (M : ℝ) * (2 : ℝ) ^ ((((Finset.range M).sum fun k => PCSA.r (regs k) : ℕ) : ℝ) / (M : ℝ)) / PCSA.kPhi

/-! Helper lemmas about `trailOnes`. -/

theorem trailOnes_of_even (x : Nat) (h : x % 2 ≠ 1) : trailOnes x = 0 := by
  rw [trailOnes]
  simp [h]

theorem trailOnes_odd (y : Nat) : trailOnes (2 * y + 1) = trailOnes y + 1 := by
  rw [trailOnes]
  have h1 : (2 * y + 1) % 2 = 1 := by omega
  have h2 : (2 * y + 1) / 2 = y := by omega
  simp [h1, h2]

theorem two_mul_add_one_mod (a b : Nat) (hb : 0 < b) :
    (2 * a + 1) % (2 * b) = 2 * (a % b) + 1 := by
  have h1 := Nat.div_add_mod a b
  have h2 : a % b < b := Nat.mod_lt a hb
  have e : 2 * a + 1 = (2 * (a % b) + 1) + (2 * b) * (a / b) := by
    conv_lhs => rw [← h1]
    ring
  rw [e, Nat.add_mul_mod_self_left]
  exact Nat.mod_eq_of_lt (by omega)

theorem mod_two_pow_trailOnes (x : Nat) :
    x % 2 ^ (trailOnes x + 1) = 2 ^ trailOnes x - 1 := by
  induction x using Nat.strong_induction_on with
  | _ x ih =>
    rcases Nat.mod_two_eq_zero_or_one x with h | h
    · rw [trailOnes_of_even x (by omega)]
      simpa using h
    · obtain ⟨y, hy⟩ : ∃ y, x = 2 * y + 1 := ⟨x / 2, by omega⟩
      subst hy
      rw [trailOnes_odd]
      have ihy := ih y (by omega)
      have hpow : (2:Nat) ^ (trailOnes y + 1 + 1) = 2 * 2 ^ (trailOnes y + 1) := by ring
      have hpow2 : (2:Nat) ^ (trailOnes y + 1) = 2 * 2 ^ trailOnes y := by ring
      have hpos : 0 < (2:Nat) ^ trailOnes y := Nat.pos_pow_of_pos _ (by omega)
      rw [hpow, two_mul_add_one_mod y _ (by omega), ihy]
      omega

theorem testBit_at_trailOnes (x : Nat) : x.testBit (trailOnes x) = false := by
  have h := congrArg (fun z => z.testBit (trailOnes x)) (mod_two_pow_trailOnes x)
  simpa using h

theorem testBit_lt_trailOnes (x j : Nat) (hj : j < trailOnes x) :
    x.testBit j = true := by
  have h := congrArg (fun z => z.testBit j) (mod_two_pow_trailOnes x)
  simp only [Nat.testBit_mod_two_pow, Nat.testBit_two_pow_sub_one] at h
  have h1 : j < trailOnes x + 1 := by omega
  simpa [h1, hj] using h

theorem trailOnes_two_pow_sub_one (w : Nat) : trailOnes (2 ^ w - 1) = w := by
  induction w with
  | zero => exact trailOnes_of_even 0 (by omega)
  | succ w ih =>
    have hpos : 0 < (2:Nat) ^ w := Nat.pos_pow_of_pos _ (by omega)
    have h : 2 ^ (w + 1) - 1 = 2 * (2 ^ w - 1) + 1 := by
      have h2 : (2:Nat) ^ (w + 1) = 2 * 2 ^ w := by ring
      omega
    rw [h, trailOnes_odd, ih]

theorem trailOnes_lt_width (x w : Nat) (hx : x < 2 ^ w) (hne : x ≠ 2 ^ w - 1) :
    trailOnes x < w := by
  by_contra hc
  push_neg at hc
  apply hne
  have hle : 2 ^ w - 1 ≤ x := by
    apply Nat.le_of_testBit
    intro i hi
    simp only [Nat.testBit_two_pow_sub_one, decide_eq_true_eq] at hi
    exact testBit_lt_trailOnes x i (lt_of_lt_of_le hi hc)
  omega

/-! Characterisation of the bit-rank utilities. -/

theorem x_decomp (x : Nat) :
    x = 2 ^ (trailOnes x + 1) * (x / 2 ^ (trailOnes x + 1)) + (2 ^ trailOnes x - 1) := by
  have h1 := Nat.div_add_mod x (2 ^ (trailOnes x + 1))
  have h2 := mod_two_pow_trailOnes x
  omega

theorem add_one_decomp (x : Nat) :
    x + 1 = 2 ^ (trailOnes x + 1) * (x / 2 ^ (trailOnes x + 1)) + 2 ^ trailOnes x := by
  have h1 := x_decomp x
  have h2 : 0 < (2:Nat) ^ trailOnes x := Nat.pos_pow_of_pos _ (by omega)
  omega

theorem R_spec (x : Nat) (hx : x < 2 ^ 32) (hne : x ≠ 2 ^ 32 - 1) :
    PCSA.R x = 2 ^ trailOnes x := by
  have ht : trailOnes x < 32 := trailOnes_lt_width x 32 hx hne
  have hx1 : x + 1 < 2 ^ 32 := by omega
  unfold PCSA.R
  rw [Nat.mod_eq_of_lt hx, Nat.mod_eq_of_lt hx1]
  apply Nat.eq_of_testBit_eq
  intro j
  have hpos : 0 < (2:Nat) ^ trailOnes x := Nat.pos_pow_of_pos _ (by omega)
  have hpow : (2:Nat) ^ (trailOnes x + 1) = 2 * 2 ^ trailOnes x := by ring
  have hlt1 : 2 ^ trailOnes x - 1 < 2 ^ (trailOnes x + 1) := by omega
  have hlt2 : (2:Nat) ^ trailOnes x < 2 ^ (trailOnes x + 1) := by omega
  have hxbit : x.testBit j =
      if j < trailOnes x + 1 then decide (j < trailOnes x)
      else (x / 2 ^ (trailOnes x + 1)).testBit (j - (trailOnes x + 1)) := by
    conv_lhs => rw [x_decomp x]
    rw [Nat.testBit_mul_pow_two_add _ hlt1]
    simp
  have hx1bit : (x + 1).testBit j =
      if j < trailOnes x + 1 then decide (trailOnes x = j)
      else (x / 2 ^ (trailOnes x + 1)).testBit (j - (trailOnes x + 1)) := by
    conv_lhs => rw [add_one_decomp x]
    rw [Nat.testBit_mul_pow_two_add _ hlt2]
    simp [Nat.testBit_two_pow]
  rw [Nat.testBit_and, Nat.testBit_xor, hxbit, hx1bit,
    Nat.testBit_two_pow_sub_one, Nat.testBit_two_pow]
  by_cases hj32 : 32 ≤ j
  · have hm : decide (j < 32) = false := by simp; omega
    have hxj : x.testBit j = false := Nat.testBit_lt_two_pow (by
      calc x < 2 ^ 32 := hx
        _ ≤ 2 ^ j := Nat.pow_le_pow_right (by omega) hj32)
    have hxj' : (if j < trailOnes x + 1 then decide (j < trailOnes x)
        else (x / 2 ^ (trailOnes x + 1)).testBit (j - (trailOnes x + 1))) = false := by
      rw [← hxbit]; exact hxj
    rw [hm, hxj']
    simp
    omega
  · push_neg at hj32
    have hm : decide (j < 32) = true := by simp [hj32]
    rw [hm]
    rcases lt_trichotomy j (trailOnes x) with hj | hj | hj
    · have h1 : j < trailOnes x + 1 := by omega
      simp [h1, hj]
      omega
    · subst hj
      simp
    · have h1 : ¬(j < trailOnes x + 1) := by omega
      have h2 : decide (trailOnes x = j) = false := by simp; omega
      rw [if_neg h1, if_neg h1, h2]
      cases hb : (x / 2 ^ (trailOnes x + 1)).testBit (j - (trailOnes x + 1)) <;> simp

theorem R_allones : PCSA.R (2 ^ 32 - 1) = 0 := by
  unfold PCSA.R
  rw [Nat.mod_eq_of_lt (by norm_num), Nat.xor_self, Nat.zero_and]

theorem countP_range_lt (n t : Nat) :
    (List.range n).countP (fun i => decide (i < t)) = min t n := by
  induction n with
  | zero => simp
  | succ n ih =>
    rw [List.range_succ, List.countP_append, ih]
    by_cases h : n < t <;> simp [List.countP_cons, h] <;> omega

theorem p_two_pow_sub_one (t : Nat) (ht : t ≤ 32) : PCSA.p (2 ^ t - 1) = t := by
  have hle : (2:Nat) ^ t ≤ 2 ^ 32 := Nat.pow_le_pow_right (by omega) ht
  unfold PCSA.p
  rw [Nat.mod_eq_of_lt (by omega)]
  have he : (fun i => (2 ^ t - 1).testBit i) = fun i => decide (i < t) :=
    funext fun i => Nat.testBit_two_pow_sub_one t i
  rw [he, countP_range_lt]
  omega

theorem r_spec (x : Nat) (hx : x < 2 ^ 32) : PCSA.r x = trailOnes x := by
  by_cases hne : x = 2 ^ 32 - 1
  · subst hne
    unfold PCSA.r
    rw [R_allones, trailOnes_two_pow_sub_one]
    have h1 : (0 + (2 ^ 32 - 1)) % 2 ^ 32 = 2 ^ 32 - 1 := by norm_num
    rw [h1, p_two_pow_sub_one 32 le_rfl]
  · have ht : trailOnes x < 32 := trailOnes_lt_width x 32 hx hne
    have hpos : 0 < (2:Nat) ^ trailOnes x := Nat.pos_pow_of_pos _ (by omega)
    have hle : (2:Nat) ^ trailOnes x ≤ 2 ^ 32 := Nat.pow_le_pow_right (by omega) (by omega)
    unfold PCSA.r
    rw [R_spec x hx hne]
    have h1 : (2 ^ trailOnes x + (2 ^ 32 - 1)) % 2 ^ 32 = 2 ^ trailOnes x - 1 := by
      have e : 2 ^ trailOnes x + (2 ^ 32 - 1) = (2 ^ trailOnes x - 1) + 1 * 2 ^ 32 := by omega
      rw [e, Nat.add_mul_mod_self_right]
      exact Nat.mod_eq_of_lt (by omega)
    rw [h1, p_two_pow_sub_one _ (by omega)]

theorem R_lt_two_pow (x : Nat) : PCSA.R x < 2 ^ 32 := by
  unfold PCSA.R
  calc _ ≤ (x % 2 ^ 32 + 1) % 2 ^ 32 := Nat.and_le_right
    _ < 2 ^ 32 := Nat.mod_lt _ (by norm_num)

theorem r_le_32 (x : Nat) : PCSA.r x ≤ 32 := by
  unfold PCSA.r PCSA.p
  calc (List.range 32).countP _ ≤ (List.range 32).length := List.countP_le_length _
    _ = 32 := List.length_range 32

/-! Helper lemmas about the register-sum loops in the `count` methods. -/

theorem foldl_add_mod (f : Nat → Nat) (m : Nat) :
    ∀ (l : List Nat) (a : Nat),
      l.foldl (fun acc k => (acc + f k) % m) (a % m)
        = (l.foldl (fun acc k => acc + f k) a) % m := by
  intro l
  induction l with
  | nil => intro a; rfl
  | cons x xs ih =>
    intro a
    simp only [List.foldl_cons]
    have e : (a % m + f x) % m = (a + f x) % m := by rw [Nat.mod_add_mod]
    rw [e]
    exact ih (a + f x)

theorem foldl_add_eq_sum {α : Type} [AddCommMonoid α] (f : Nat → α) (M : Nat) :
    (List.range M).foldl (fun acc k => acc + f k) 0 = (Finset.range M).sum f := by
  induction M with
  | zero => simp
  | succ n ih =>
    rw [List.range_succ, List.foldl_append]
    simp only [List.foldl_cons, List.foldl_nil]
    rw [ih, Finset.sum_range_succ]

theorem foldl_mod_eq_sum_mod (f : Nat → Nat) (M : Nat) :
    (List.range M).foldl (fun acc k => (acc + f k) % 2 ^ 32) 0
      = ((Finset.range M).sum f) % 2 ^ 32 := by
  have h := foldl_add_mod f (2 ^ 32) (List.range M) 0
  rw [Nat.zero_mod] at h
  rw [h, foldl_add_eq_sum]

/-! Helper lemmas about the register updates. -/

/-- Fold value v into register k with the binary operation op
(OR for bitmap registers, max for max-rank registers). -/
def opUpd (op : Nat → Nat → Nat) (k v : Nat) (regs : Nat → Nat) : Nat → Nat :=
  updAt regs k (op (regs k) v)

theorem sa_item_eq_opUpd (bh rh : String → Nat) (M : Nat) (s : String)
    (regs : Nat → Nat) :
    StochasticAveragingCardinalityEstimator.item bh rh M s regs
      = opUpd (· ||| ·) (bucketIdx bh M s) (PCSA.R (rh s)) regs := rfl

theorem ll_item_eq_opUpd (bh rh : String → Nat) (M : Nat) (s : String)
    (regs : Nat → Nat) :
    LogLogCardinalityEstimator.item bh rh M s regs
      = opUpd max (bucketIdx bh M s) (PCSA.r (rh s)) regs := by
  unfold LogLogCardinalityEstimator.item opUpd
  by_cases h : regs (bucketIdx bh M s) < PCSA.r (rh s)
  · rw [if_pos h]
    unfold updAt
    funext j
    by_cases hj : j = bucketIdx bh M s <;>
      simp [hj, Nat.max_eq_right (le_of_lt h)]
  · rw [if_neg h]
    unfold updAt
    funext j
    by_cases hj : j = bucketIdx bh M s <;>
      simp [hj, Nat.max_eq_left (Nat.le_of_not_lt h)]

theorem hll_item_eq_ll (bh rh : String → Nat) (M : Nat) (s : String)
    (regs : Nat → Nat) :
    HyperLogLogCardinalityEstimator.item bh rh M s regs
      = LogLogCardinalityEstimator.item bh rh M s regs := rfl

theorem opUpd_comm (op : Nat → Nat → Nat)
    (hcomm : ∀ a b, op a b = op b a)
    (hassoc : ∀ a b c, op (op a b) c = op a (op b c))
    (k₁ v₁ k₂ v₂ : Nat) (regs : Nat → Nat) :
    opUpd op k₂ v₂ (opUpd op k₁ v₁ regs) = opUpd op k₁ v₁ (opUpd op k₂ v₂ regs) := by
  funext j
  unfold opUpd updAt
  by_cases h12 : k₁ = k₂
  · subst h12
    by_cases hj : j = k₁ <;> simp [hj]
    rw [hassoc, hassoc, hcomm v₁ v₂]
  · have h21 : k₂ ≠ k₁ := fun h => h12 h.symm
    by_cases hj1 : j = k₁
    · subst hj1
      simp [h12, h21]
    · by_cases hj2 : j = k₂
      · subst hj2
        simp [h12, h21]
      · simp [hj1, hj2]

theorem opUpd_idem (op : Nat → Nat → Nat)
    (hassoc : ∀ a b c, op (op a b) c = op a (op b c))
    (hidem : ∀ a, op a a = a)
    (k v : Nat) (regs : Nat → Nat) :
    opUpd op k v (opUpd op k v regs) = opUpd op k v regs := by
  funext j
  unfold opUpd updAt
  by_cases hj : j = k <;> simp [hj]
  rw [hassoc, hidem]

theorem le_or_left (a b : Nat) : a ≤ a ||| b :=
  Nat.le_of_testBit (fun i h => by rw [Nat.testBit_or, h, Bool.true_or])

theorem ingestAll_replicate_succ {σ : Type} (f : String → σ → σ) (s : String)
    (hf : ∀ st, f s (f s st) = f s st) :
    ∀ (n : Nat) (st : σ), ingestAll f (List.replicate (n + 1) s) st = f s st := by
  intro n
  induction n with
  | zero => intro st; rfl
  | succ m ih =>
    intro st
    rw [List.replicate_succ]
    show ingestAll f (List.replicate (m + 1) s) (f s st) = f s st
    rw [ih (f s st), hf]

theorem kPhi_pos : 0 < PCSA.kPhi := by norm_num [PCSA.kPhi]

/-! Claim theorems. -/

/-- C3: `lowestZeroBitValue(x) = ~x & (x+1)` equals `2^i` where i is the
index of the least-significant cleared bit of x (characterised here as
`trailOnes x`, the position whose bit is cleared while all lower bits are
set); `rank(x) = popcount(lowestZeroBitValue(x) - 1)` counts the trailing
one-bits of x; `rank 0 = 0`, `rank 0b1 = 1`, `rank 0b11 = 2`,
`rank 0b101 = 1`, `rank 0xFFFFFFFF = 32`, the all-ones case going through
the 32-bit wraparound `lowestZeroBitValue 0xFFFFFFFF = 0` and
`0 - 1 = 0xFFFFFFFF`. -/
theorem c3_bit_rank_utilities (x : Nat) (hx : x < 2 ^ 32) :
    (x ≠ 2 ^ 32 - 1 →
      (PCSA.R x = 2 ^ trailOnes x
        ∧ x.testBit (trailOnes x) = false
        ∧ ∀ j, j < trailOnes x → x.testBit j = true))
    ∧ PCSA.r x = trailOnes x
    ∧ PCSA.r 0 = 0 ∧ PCSA.r 1 = 1 ∧ PCSA.r 3 = 2 ∧ PCSA.r 5 = 1
    ∧ PCSA.r (2 ^ 32 - 1) = 32 ∧ PCSA.R (2 ^ 32 - 1) = 0 := by
  refine ⟨fun hne => ⟨R_spec x hx hne, testBit_at_trailOnes x,
      fun j hj => testBit_lt_trailOnes x j hj⟩,
    r_spec x hx, by decide, by decide, by decide, by decide, by decide, by decide⟩

/-- Witness for C3 at the concrete input x = 5. -/
theorem c3_witness : PCSA.r 5 = trailOnes 5 ∧ PCSA.R 5 = 2 ^ trailOnes 5 := by
  have h := c3_bit_rank_utilities 5 (by norm_num)
  exact ⟨h.2.1, (h.1 (by norm_num)).1⟩

/-- C1 is a code bug: no `count` method special-cases empty registers, so
a freshly constructed estimator of every variant returns a nonzero
estimate (PCSA: `R(0)/kPhi = 1/kPhi`; Stochastic Averaging with M = 1:
`1/kPhi`; LogLog with M = 1: `4*kPhi`; HyperLogLog with M = 1: `2*kPhi`),
contradicting the requirement that `estimate()` be 0 before any item is
ingested.  This theorem evaluates the code at the failing inputs. -/
theorem c1_fresh_estimate_nonzero :
    PCSACardinalityEstimator.count 0 = 1 / PCSA.kPhi
    ∧ StochasticAveragingCardinalityEstimator.count 1 (initRegs 1) = 1 / PCSA.kPhi
    ∧ LogLogCardinalityEstimator.count 1 (initRegs 1) = 4 * PCSA.kPhi
    ∧ HyperLogLogCardinalityEstimator.count 1 (initRegs 1) = 2 * PCSA.kPhi
    ∧ 1 / PCSA.kPhi ≠ 0 ∧ 4 * PCSA.kPhi ≠ 0 ∧ 2 * PCSA.kPhi ≠ 0 := by
  have hphi := kPhi_pos
  refine ⟨?_, ?_, ?_, ?_, ?_, ?_, ?_⟩
  · have hR : PCSA.R 0 = 1 := by decide
    unfold PCSACardinalityEstimator.count
    rw [hR]
    norm_num
  · unfold StochasticAveragingCardinalityEstimator.count initRegs
    have h1 : (List.range 1).foldl (fun acc k => (acc + PCSA.r 0) % 2^32) 0 = 0 := by decide
    simp only [h1]
    rw [Nat.cast_zero, Nat.cast_one, zero_div, Real.rpow_zero]
    norm_num
  · unfold LogLogCardinalityEstimator.count initRegs
    have h1 : (List.range 1).foldl (fun acc k => (acc + PCSA.R 0) % 2^32) 0 = 1 := by decide
    simp only [h1]
    rw [Nat.cast_one, div_one]
    have h2 : (1:ℝ) + 1 = ((2:ℕ):ℝ) := by norm_num
    rw [h2, Real.rpow_natCast]
    norm_num
  · unfold HyperLogLogCardinalityEstimator.count initRegs
    have hr : List.range 1 = [0] := rfl
    have h1 : (-1 - ((0:ℕ):ℝ)) = (-1 : ℝ) := by norm_num
    rw [hr]
    simp only [List.foldl_cons, List.foldl_nil, h1, Real.rpow_neg_one, zero_add]
    rw [Nat.cast_one, one_mul, one_mul, div_eq_mul_inv, inv_inv]
    ring
  · positivity
  · positivity
  · positivity

/-- C9 is a code bug: the constructors of the bucketed estimators contain
no validation of M whatsoever (they only zero the registers), so M = 0 is
not rejected by any explicit check.  This theorem evaluates the embedded
code at M = 0: construction yields the all-zero register family and the
`count` bodies run through (in the real-number idealisation the degenerate
mean `0/0` is 0; the C++ `double` code computes `0.0/0.0 = NaN` here, and
the first `item` call would take `% 0`). -/
theorem c9_m_zero_not_rejected :
    (∀ k, initRegs 0 k = 0)
    ∧ StochasticAveragingCardinalityEstimator.count 0 (initRegs 0) = 0
    ∧ LogLogCardinalityEstimator.count 0 (initRegs 0) = 0
    ∧ HyperLogLogCardinalityEstimator.count 0 (initRegs 0) = 0 := by
  refine ⟨fun k => rfl, ?_, ?_, ?_⟩
  · unfold StochasticAveragingCardinalityEstimator.count
    simp
  · unfold LogLogCardinalityEstimator.count
    simp
  · unfold HyperLogLogCardinalityEstimator.count
    simp

/-- C2 counterexample: with M = 1 and the register holding 2, the LogLog
`count` sums `lowestZeroBitValue(2) = 1` (giving `4 * kPhi`), while the
claim's formula sums `2^2 = 4` (giving `32 * kPhi`). -/
theorem c2_counterexample :
    LogLogCardinalityEstimator.count 1 (fun _ => 2)
      ≠ llClaimedCount 1 (fun _ => 2) := by
  have hphi := kPhi_pos
  have hlhs : LogLogCardinalityEstimator.count 1 (fun _ => 2) = 4 * PCSA.kPhi := by
    unfold LogLogCardinalityEstimator.count
    have h1 : (List.range 1).foldl (fun acc k => (acc + PCSA.R 2) % 2^32) 0 = 1 := by decide
    simp only [h1]
    rw [Nat.cast_one, div_one]
    have h2 : (1:ℝ) + 1 = ((2:ℕ):ℝ) := by norm_num
    rw [h2, Real.rpow_natCast]
    norm_num
  have hrhs : llClaimedCount 1 (fun _ => 2) = 32 * PCSA.kPhi := by
    unfold llClaimedCount
    rw [Finset.sum_range_one]
    have h2 : ((2:ℝ) ^ (2:ℕ) / ((1:ℕ):ℝ) + 1) = ((5:ℕ):ℝ) := by norm_num
    rw [h2, Real.rpow_natCast]
    norm_num
  rw [hlhs, hrhs]
  intro h
  have h4 : (4:ℝ) = 32 := mul_right_cancel₀ (ne_of_gt hphi) h
  norm_num at h4

/-- C2 (amended): for M ≥ 1, LogLog `estimate()` equals
`M * 2^(mean + 1) * kPhi` where mean is the arithmetic mean over the M
buckets of `lowestZeroBitValue(registers[k])` (that is,
`2^(trailing-one-count of registers[k])`, not `2^(registers[k])`),
provided the bucket sum stays below `2^32` (it is accumulated in a
`uint32_t`; every reachable register value is at most 32, making each
summand at most 32, so this holds whenever `M < 2^27`). -/
theorem c2_loglog_count_formula (M : Nat) (regs : Nat → Nat) (hM : 1 ≤ M)
    (hs : (Finset.range M).sum (fun k => PCSA.R (regs k)) < 2 ^ 32) :
    LogLogCardinalityEstimator.count M regs
      = (M : ℝ) * (2 : ℝ) ^
          (((((Finset.range M).sum fun k => PCSA.R (regs k)) : ℕ) : ℝ) / (M : ℝ) + 1)
          * PCSA.kPhi := by
  unfold LogLogCardinalityEstimator.count
  rw [foldl_mod_eq_sum_mod, Nat.mod_eq_of_lt hs]

/-- Witness for C2's amended theorem at M = 1, register value 2. -/
theorem c2_witness :
    LogLogCardinalityEstimator.count 1 (fun _ => 2)
      = ((1:ℕ) : ℝ) * (2 : ℝ) ^
          (((((Finset.range 1).sum fun _ => PCSA.R 2) : ℕ) : ℝ) / ((1:ℕ) : ℝ) + 1)
          * PCSA.kPhi :=
  c2_loglog_count_formula 1 (fun _ => 2) (by norm_num)
    (by rw [Finset.sum_range_one]; decide)

/-- Helper for the C4 counterexample: the Stochastic-Averaging `count`
when every bucket has the same rank c, kept symbolic in M so that the
`uint32_t` wraparound `(M * c) % 2^32` surfaces as literal arithmetic. -/
theorem sa_count_const (M c : Nat) (regs : Nat → Nat)
    (hc : ∀ k, PCSA.r (regs k) = c) :
    StochasticAveragingCardinalityEstimator.count M regs
      = (M : ℝ) * (2 : ℝ) ^ ((((M * c) % 2 ^ 32 : ℕ) : ℝ) / (M : ℝ)) / PCSA.kPhi := by
  unfold StochasticAveragingCardinalityEstimator.count
  rw [foldl_mod_eq_sum_mod]
  rw [show (fun k => PCSA.r (regs k)) = fun _ => c from funext hc]
  rw [Finset.sum_const, Finset.card_range, smul_eq_mul]

/-- Helper for the C4 counterexample: the claim-side formula when every
bucket has the same rank c. -/
theorem saClaimedCount_const (M c : Nat) (regs : Nat → Nat)
    (hc : ∀ k, PCSA.r (regs k) = c) :
    saClaimedCount M regs
      = (M : ℝ) * (2 : ℝ) ^ (((M * c : ℕ) : ℝ) / (M : ℝ)) / PCSA.kPhi := by
  unfold saClaimedCount
  rw [show (fun k => PCSA.r (regs k)) = fun _ => c from funext hc]
  rw [Finset.sum_const, Finset.card_range, smul_eq_mul]

/-- C4 counterexample: the `uint32_t` accumulator of the rank sum wraps.
With M = 2^27 buckets all holding the all-ones bitmap, every bucket rank
is 32, the true rank sum is `2^27 * 32 = 2^32`, the `uint32_t` sum wraps
to 0, and the code returns `M / kPhi` while the claim's formula gives
`M * 2^32 / kPhi`. -/
theorem c4_counterexample :
    StochasticAveragingCardinalityEstimator.count (2 ^ 27) (fun _ => 2 ^ 32 - 1)
      ≠ saClaimedCount (2 ^ 27) (fun _ => 2 ^ 32 - 1) := by
  have hphi := kPhi_pos
  have hr32 : PCSA.r (2 ^ 32 - 1) = 32 := by decide
  have hc : ∀ k : ℕ, PCSA.r ((fun _ : ℕ => 2 ^ 32 - 1) k) = 32 := fun _ => hr32
  have h1 := sa_count_const (2 ^ 27) 32 (fun _ => 2 ^ 32 - 1) hc
  have h2 := saClaimedCount_const (2 ^ 27) 32 (fun _ => 2 ^ 32 - 1) hc
  rw [h1, h2]
  have e1 : (((2 ^ 27 * 32) % 2 ^ 32 : ℕ) : ℝ) = 0 := by norm_num
  have e2 : (((2 ^ 27 * 32 : ℕ)) : ℝ) / ((2 ^ 27 : ℕ) : ℝ) = ((32 : ℕ) : ℝ) := by
    push_cast
    norm_num
  rw [e1, e2, zero_div, Real.rpow_zero, Real.rpow_natCast]
  intro hcon
  rw [div_eq_div_iff (ne_of_gt hphi) (ne_of_gt hphi)] at hcon
  have h3 := mul_right_cancel₀ (ne_of_gt hphi) hcon
  norm_num at h3

/-- C4 (amended): for M ≥ 1, `ingest` ORs `lowestZeroBitValue(rankHash s)`
into the register at `bucketHash s mod M` leaving the others unchanged,
and `estimate()` equals `M * 2^mean / kPhi` where mean is the arithmetic
mean over the M buckets of `rank(registers[k])`, provided the rank sum
stays below `2^32` (it is accumulated in a `uint32_t`; each rank is at
most 32, so this holds whenever `M < 2^27`). -/
theorem c4_sa_spec (bh rh : String → Nat) (M : Nat) (s : String)
    (regs : Nat → Nat) (hM : 1 ≤ M)
    (hs : (Finset.range M).sum (fun k => PCSA.r (regs k)) < 2 ^ 32) :
    (∀ j, StochasticAveragingCardinalityEstimator.item bh rh M s regs j
        = if j = bucketIdx bh M s then regs j ||| PCSA.R (rh s) else regs j)
    ∧ StochasticAveragingCardinalityEstimator.count M regs
      = (M : ℝ) * (2 : ℝ) ^
          (((((Finset.range M).sum fun k => PCSA.r (regs k)) : ℕ) : ℝ) / (M : ℝ))
          / PCSA.kPhi := by
  constructor
  · intro j
    unfold StochasticAveragingCardinalityEstimator.item updAt
    by_cases hj : j = bucketIdx bh M s <;> simp [hj]
  · unfold StochasticAveragingCardinalityEstimator.count
    rw [foldl_mod_eq_sum_mod, Nat.mod_eq_of_lt hs]

/-- Witness for C4's amended theorem at M = 1, an empty register, and
concrete hash functions. -/
theorem c4_witness :
    (∀ j, StochasticAveragingCardinalityEstimator.item (fun _ => 3) (fun _ => 5) 1 "a" (initRegs 1) j
        = if j = bucketIdx (fun _ => 3) 1 "a" then initRegs 1 j ||| PCSA.R 5 else initRegs 1 j)
    ∧ StochasticAveragingCardinalityEstimator.count 1 (initRegs 1)
      = ((1:ℕ) : ℝ) * (2 : ℝ) ^
          (((((Finset.range 1).sum fun k => PCSA.r (initRegs 1 k)) : ℕ) : ℝ) / ((1:ℕ) : ℝ))
          / PCSA.kPhi :=
  c4_sa_spec (fun _ => 3) (fun _ => 5) 1 "a" (initRegs 1) (by norm_num)
    (by rw [Finset.sum_range_one]; decide)

/-- C5: for M ≥ 1 and every register state, HyperLogLog `estimate()`
equals `M^2 * kPhi / sum` where `sum = Σ_k 2^(-1 - registers[k])` over the
M buckets. -/
theorem c5_hll_count_formula (M : Nat) (regs : Nat → Nat) (hM : 1 ≤ M) :
    HyperLogLogCardinalityEstimator.count M regs
      = (M : ℝ) ^ 2 * PCSA.kPhi
        / (Finset.range M).sum (fun k => (2:ℝ) ^ (-1 - (regs k : ℝ))) := by
  unfold HyperLogLogCardinalityEstimator.count
  rw [foldl_add_eq_sum, sq]

/-- Witness for C5 at M = 1 with an empty register. -/
theorem c5_witness :
    HyperLogLogCardinalityEstimator.count 1 (initRegs 1) = 2 * PCSA.kPhi := by
  have h := c5_hll_count_formula 1 (initRegs 1) (by norm_num)
  rw [h, Finset.sum_range_one]
  have h1 : (-1 - ((initRegs 1 0 : ℕ) : ℝ)) = (-1 : ℝ) := by norm_num [initRegs]
  rw [h1, Real.rpow_neg_one]
  rw [Nat.cast_one, one_pow, one_mul, div_eq_mul_inv, inv_inv]
  ring

/-- C6: for every estimator variant, ingesting a multiset of items in any
two orders produces identical register contents and hence identical
`count()` results, and ingesting the same item n ≥ 1 times produces the
same state as ingesting it once: the per-register update (bitwise OR for
bitmap registers, max for max-rank registers) is commutative and
idempotent. -/
theorem c6_order_and_duplicate_insensitive (bh rh : String → Nat) (M : Nat)
    (l₁ l₂ : List String) (hp : l₁.Perm l₂) (s : String) (n : Nat) (hn : 1 ≤ n)
    (regs : Nat → Nat) (sketch : Nat) :
    (ingestAll (StochasticAveragingCardinalityEstimator.item bh rh M) l₁ regs
        = ingestAll (StochasticAveragingCardinalityEstimator.item bh rh M) l₂ regs
      ∧ StochasticAveragingCardinalityEstimator.count M
          (ingestAll (StochasticAveragingCardinalityEstimator.item bh rh M) l₁ regs)
        = StochasticAveragingCardinalityEstimator.count M
          (ingestAll (StochasticAveragingCardinalityEstimator.item bh rh M) l₂ regs))
    ∧ (ingestAll (LogLogCardinalityEstimator.item bh rh M) l₁ regs
        = ingestAll (LogLogCardinalityEstimator.item bh rh M) l₂ regs
      ∧ LogLogCardinalityEstimator.count M
          (ingestAll (LogLogCardinalityEstimator.item bh rh M) l₁ regs)
        = LogLogCardinalityEstimator.count M
          (ingestAll (LogLogCardinalityEstimator.item bh rh M) l₂ regs))
    ∧ (ingestAll (HyperLogLogCardinalityEstimator.item bh rh M) l₁ regs
        = ingestAll (HyperLogLogCardinalityEstimator.item bh rh M) l₂ regs
      ∧ HyperLogLogCardinalityEstimator.count M
          (ingestAll (HyperLogLogCardinalityEstimator.item bh rh M) l₁ regs)
        = HyperLogLogCardinalityEstimator.count M
          (ingestAll (HyperLogLogCardinalityEstimator.item bh rh M) l₂ regs))
    ∧ (ingestAll (PCSACardinalityEstimator.item rh) l₁ sketch
        = ingestAll (PCSACardinalityEstimator.item rh) l₂ sketch
      ∧ PCSACardinalityEstimator.count
          (ingestAll (PCSACardinalityEstimator.item rh) l₁ sketch)
        = PCSACardinalityEstimator.count
          (ingestAll (PCSACardinalityEstimator.item rh) l₂ sketch))
    ∧ ingestAll (StochasticAveragingCardinalityEstimator.item bh rh M)
        (List.replicate n s) regs
        = StochasticAveragingCardinalityEstimator.item bh rh M s regs
    ∧ ingestAll (LogLogCardinalityEstimator.item bh rh M) (List.replicate n s) regs
        = LogLogCardinalityEstimator.item bh rh M s regs
    ∧ ingestAll (HyperLogLogCardinalityEstimator.item bh rh M) (List.replicate n s) regs
        = HyperLogLogCardinalityEstimator.item bh rh M s regs
    ∧ ingestAll (PCSACardinalityEstimator.item rh) (List.replicate n s) sketch
        = PCSACardinalityEstimator.item rh s sketch := by
  have sa_comm : ∀ (x y : String) (z : Nat → Nat),
      StochasticAveragingCardinalityEstimator.item bh rh M y
          (StochasticAveragingCardinalityEstimator.item bh rh M x z)
        = StochasticAveragingCardinalityEstimator.item bh rh M x
          (StochasticAveragingCardinalityEstimator.item bh rh M y z) := by
    intro x y z
    simp only [sa_item_eq_opUpd]
    exact opUpd_comm _ Nat.or_comm Nat.or_assoc _ _ _ _ z
  have sa_idem : ∀ (x : String) (z : Nat → Nat),
      StochasticAveragingCardinalityEstimator.item bh rh M x
          (StochasticAveragingCardinalityEstimator.item bh rh M x z)
        = StochasticAveragingCardinalityEstimator.item bh rh M x z := by
    intro x z
    simp only [sa_item_eq_opUpd]
    exact opUpd_idem _ Nat.or_assoc Nat.or_self _ _ z
  have ll_comm : ∀ (x y : String) (z : Nat → Nat),
      LogLogCardinalityEstimator.item bh rh M y
          (LogLogCardinalityEstimator.item bh rh M x z)
        = LogLogCardinalityEstimator.item bh rh M x
          (LogLogCardinalityEstimator.item bh rh M y z) := by
    intro x y z
    simp only [ll_item_eq_opUpd]
    exact opUpd_comm _ Nat.max_comm Nat.max_assoc _ _ _ _ z
  have ll_idem : ∀ (x : String) (z : Nat → Nat),
      LogLogCardinalityEstimator.item bh rh M x
          (LogLogCardinalityEstimator.item bh rh M x z)
        = LogLogCardinalityEstimator.item bh rh M x z := by
    intro x z
    simp only [ll_item_eq_opUpd]
    exact opUpd_idem _ Nat.max_assoc Nat.max_self _ _ z
  have pcsa_comm : ∀ (x y : String) (z : Nat),
      PCSACardinalityEstimator.item rh y (PCSACardinalityEstimator.item rh x z)
        = PCSACardinalityEstimator.item rh x (PCSACardinalityEstimator.item rh y z) := by
    intro x y z
    unfold PCSACardinalityEstimator.item
    rw [Nat.or_assoc, Nat.or_assoc, Nat.or_comm (PCSA.R (rh x))]
  have pcsa_idem : ∀ (x : String) (z : Nat),
      PCSACardinalityEstimator.item rh x (PCSACardinalityEstimator.item rh x z)
        = PCSACardinalityEstimator.item rh x z := by
    intro x z
    unfold PCSACardinalityEstimator.item
    rw [Nat.or_assoc, Nat.or_self]
  obtain ⟨m, rfl⟩ : ∃ m, n = m + 1 := ⟨n - 1, by omega⟩
  have hsa : ingestAll (StochasticAveragingCardinalityEstimator.item bh rh M) l₁ regs
      = ingestAll (StochasticAveragingCardinalityEstimator.item bh rh M) l₂ regs := by
    unfold ingestAll
    exact hp.foldl_eq' (fun x _ y _ z => sa_comm x y z) regs
  have hll : ingestAll (LogLogCardinalityEstimator.item bh rh M) l₁ regs
      = ingestAll (LogLogCardinalityEstimator.item bh rh M) l₂ regs := by
    unfold ingestAll
    exact hp.foldl_eq' (fun x _ y _ z => ll_comm x y z) regs
  have hhll : ingestAll (HyperLogLogCardinalityEstimator.item bh rh M) l₁ regs
      = ingestAll (HyperLogLogCardinalityEstimator.item bh rh M) l₂ regs := by
    unfold ingestAll
    exact hp.foldl_eq' (fun x _ y _ z => by
      simp only [hll_item_eq_ll]
      exact ll_comm x y z) regs
  have hpcsa : ingestAll (PCSACardinalityEstimator.item rh) l₁ sketch
      = ingestAll (PCSACardinalityEstimator.item rh) l₂ sketch := by
    unfold ingestAll
    exact hp.foldl_eq' (fun x _ y _ z => pcsa_comm x y z) sketch
  refine ⟨⟨hsa, by rw [hsa]⟩, ⟨hll, by rw [hll]⟩, ⟨hhll, by rw [hhll]⟩,
    ⟨hpcsa, by rw [hpcsa]⟩, ?_, ?_, ?_, ?_⟩
  · exact ingestAll_replicate_succ _ s (fun st => sa_idem s st) m regs
  · exact ingestAll_replicate_succ _ s (fun st => ll_idem s st) m regs
  · exact ingestAll_replicate_succ _ s (fun st => by
      simp only [hll_item_eq_ll]
      exact ll_idem s st) m regs
  · exact ingestAll_replicate_succ _ s (fun st => pcsa_idem s st) m sketch

/-- Witness for C6: concrete hashes, M = 2, the two orderings of
`["a", "b"]`, and ingesting "a" twice, starting from fresh registers. -/
theorem c6_witness :
    ingestAll (StochasticAveragingCardinalityEstimator.item (fun _ => 0) String.length 2)
        ["a", "b"] (initRegs 2)
      = ingestAll (StochasticAveragingCardinalityEstimator.item (fun _ => 0) String.length 2)
        ["b", "a"] (initRegs 2)
    ∧ ingestAll (LogLogCardinalityEstimator.item (fun _ => 0) String.length 2)
        (List.replicate 2 "a") (initRegs 2)
      = LogLogCardinalityEstimator.item (fun _ => 0) String.length 2 "a" (initRegs 2) := by
  have h := c6_order_and_duplicate_insensitive (fun _ => 0) String.length 2
    ["a", "b"] ["b", "a"] (List.Perm.swap "b" "a" []) "a" 2 (by norm_num)
    (initRegs 2) 0
  exact ⟨h.1.1, h.2.2.2.2.2.1⟩

/-- C7: for every variant, every state and every item, each register
after `item` is at least its value before (bitmap registers only gain
bits under OR, max-rank registers only increase under max); `count` is
embedded as a pure function of the registers, matching its body, which
reads but never writes the sketch. -/
theorem c7_registers_monotone (bh rh : String → Nat) (M : Nat) (s : String)
    (regs : Nat → Nat) (k : Nat) (sketch : Nat) :
    regs k ≤ StochasticAveragingCardinalityEstimator.item bh rh M s regs k
    ∧ regs k ≤ LogLogCardinalityEstimator.item bh rh M s regs k
    ∧ regs k ≤ HyperLogLogCardinalityEstimator.item bh rh M s regs k
    ∧ sketch ≤ PCSACardinalityEstimator.item rh s sketch := by
  have hll : regs k ≤ LogLogCardinalityEstimator.item bh rh M s regs k := by
    rw [ll_item_eq_opUpd]
    unfold opUpd updAt
    by_cases hk : k = bucketIdx bh M s
    · rw [if_pos hk, hk]
      exact Nat.le_max_left _ _
    · rw [if_neg hk]
  refine ⟨?_, hll, ?_, le_or_left _ _⟩
  · unfold StochasticAveragingCardinalityEstimator.item updAt
    by_cases hk : k = bucketIdx bh M s
    · rw [if_pos hk, hk]
      exact le_or_left _ _
    · rw [if_neg hk]
  · rw [hll_item_eq_ll]
    exact hll

/-- C8: for every bucketed variant, `item` modifies at most the register
at index `bucketHash(item) mod M`; every other register is unchanged. -/
theorem c8_single_register_frame (bh rh : String → Nat) (M : Nat) (s : String)
    (regs : Nat → Nat) (j : Nat) (hj : j ≠ bucketIdx bh M s) :
    StochasticAveragingCardinalityEstimator.item bh rh M s regs j = regs j
    ∧ LogLogCardinalityEstimator.item bh rh M s regs j = regs j
    ∧ HyperLogLogCardinalityEstimator.item bh rh M s regs j = regs j := by
  have hll : LogLogCardinalityEstimator.item bh rh M s regs j = regs j := by
    rw [ll_item_eq_opUpd]
    unfold opUpd updAt
    rw [if_neg hj]
  refine ⟨?_, hll, ?_⟩
  · unfold StochasticAveragingCardinalityEstimator.item updAt
    rw [if_neg hj]
  · rw [hll_item_eq_ll]
    exact hll

/-- Witness for C8: with the zero bucket hash and M = 2 the selected
bucket is 0, and register 1 is untouched. -/
theorem c8_witness :
    StochasticAveragingCardinalityEstimator.item (fun _ => 0) String.length 2 "a"
        (initRegs 2) 1 = initRegs 2 1
    ∧ LogLogCardinalityEstimator.item (fun _ => 0) String.length 2 "a"
        (initRegs 2) 1 = initRegs 2 1
    ∧ HyperLogLogCardinalityEstimator.item (fun _ => 0) String.length 2 "a"
        (initRegs 2) 1 = initRegs 2 1 :=
  c8_single_register_frame (fun _ => 0) String.length 2 "a" (initRegs 2) 1
    (by decide)

/-- C10: for every bucketed variant with M ≥ 1, the bucket index computed
by `item` (the 32-bit bucket hash reduced modulo M) is strictly below M,
and every index the `count` loops touch (the elements of
`List.range M`) is below M, so all register accesses stay inside the M
registers. -/
theorem c10_bucket_index_in_range (bh : String → Nat) (M : Nat) (s : String)
    (hM : 1 ≤ M) :
    bucketIdx bh M s < M ∧ ∀ k ∈ List.range M, k < M :=
  ⟨Nat.mod_lt _ (by omega), fun k hk => List.mem_range.mp hk⟩

/-- Witness for C10 at a concrete hash, M = 5 and item "a". -/
theorem c10_witness : bucketIdx (fun _ => 7) 5 "a" < 5 :=
  (c10_bucket_index_in_range (fun _ => 7) 5 "a" (by norm_num)).1
